import Mathlib

/-!
Verification of core FalkorDB engine components against their C sources:
the Skip operator (src/execution_plan/ops/op_skip.c), the NodeByLabelScan
operator (op_node_by_label_scan.c), the asynchronous index populator
(index populate, src/unnamed/part_000), the v13 graph decoder
(src/serializers/decoders/prev/v13/decode_graph.c) and the v14 edge encoder
(src/serializers/encoder/v14/encode_graph_entities.c).

Graphs are static while the functions under verification run (the claims all
assume an unmutated graph), so a logical delta-matrix is embedded as its
row-major sorted tuple list, and the RG_MatrixTupleIter operations
(attach, jump_to_row, next) act on suffixes of that list.  The iterator
implementation itself is not part of src/; its semantics (row-major
iteration over the logical matrix, jump to the first entry of a row at
least r) are modelled from the spec, section 4.1.
-/

namespace FalkorDB

--------------------------------------------------------------------------------
-- Relation-matrix slot values (multi-edge encoding, spec section 3)
--------------------------------------------------------------------------------

/-- A relation-matrix cell value: either a direct edge id (`SINGLE_EDGE`,
top bit clear) or a handle to an array of edge ids (top bit set). -/
inductive SlotVal where
  | single (id : Nat)
  | multi (ids : List Nat)
deriving DecidableEq, Repr

/-- One stored entry of a relation matrix: `(src, dest)` position plus value. -/
structure Slot where
  src : Nat
  dest : Nat
  val : SlotVal
deriving DecidableEq, Repr

/-- All edge ids referenced by a slot value. -/
def slotEdges : SlotVal → List Nat
  | .single i => [i]
  | .multi ids => ids

/-- Strict row-major (lexicographic) order on matrix positions. -/
def lexLt (a b : Nat × Nat) : Prop :=
  a.1 < b.1 ∨ (a.1 = b.1 ∧ a.2 < b.2)

instance (a b : Nat × Nat) : Decidable (lexLt a b) := by
  unfold lexLt; infer_instance

/-- Strict row-major order on slots (by their `(src, dest)` position). -/
def slotLt (a b : Slot) : Prop := lexLt (a.src, a.dest) (b.src, b.dest)

instance (a b : Slot) : Decidable (slotLt a b) := by
  unfold slotLt; infer_instance

/-- A matrix tuple list as yielded by the iterator: strictly increasing in
row-major order. -/
def slotsSorted (m : List Slot) : Prop := List.Pairwise slotLt m

instance (m : List Slot) : Decidable (slotsSorted m) := by
  unfold slotsSorted; infer_instance

--------------------------------------------------------------------------------
-- Scalar values and arithmetic expressions, as used by op_skip.c
--------------------------------------------------------------------------------

/-- Tagged-union scalar value.  Only the type tag and the integer payload are
observed by `_eval_skip`; the double payload is never inspected there, so it
is not carried. -/
inductive SIVal where
  | nullv
  | boolv (b : Bool)
  | int64 (n : Int)
  | doublev
  | strv
deriving DecidableEq, Repr

/-- `SI_TYPE(s) == T_INT64`. -/
def siIsInt64 : SIVal → Bool
  | .int64 _ => true
  | _ => false

/-- `SI_GET_NUMERIC` on the variants with an integer payload. -/
def numericOf : SIVal → Int
  | .int64 n => n
  | .boolv b => if b then 1 else 0
  | _ => 0

/-- Arithmetic-expression node, restricted to the shapes relevant to SKIP:
a parameter placeholder or a constant. -/
inductive AExp where
  | param (id : Nat)
  | const (v : SIVal)
deriving DecidableEq, Repr

/-- `AR_EXP_Clone`: a structural copy of the expression tree. -/
def AR_EXP_Clone (e : AExp) : AExp := e

/-- `AR_EXP_Evaluate`: evaluating an expression yields its value and mutates
the expression in place, replacing a parameter with the constant it resolved
to.  The mutated tree is returned as the second component. -/
def AR_EXP_Evaluate (env : Nat → SIVal) : AExp → SIVal × AExp
  | .param i => (env i, .const (env i))
  | .const v => (v, .const v)

--------------------------------------------------------------------------------
-- The Skip operator (op_skip.c)
--------------------------------------------------------------------------------

/-- Build-time state of a Skip operator: the stored (unevaluated) expression
clone, the evaluated skip amount, and whether `ErrorCtx_SetError` was
invoked during validation. -/
structure OpSkip where
  skip_exp : AExp
  skip : Int
  errorSet : Bool
deriving DecidableEq, Repr

/-- `_eval_skip`: clone the input expression first (so the stored copy keeps
any parameter node), evaluate the input copy, report an error unless the
value is a non-negative int64, and record the numeric value. -/
def eval_skip (env : Nat → SIVal) (skip_exp : AExp) : OpSkip :=
  let stored := AR_EXP_Clone skip_exp
  let s := (AR_EXP_Evaluate env skip_exp).1
  let err := !(siIsInt64 s && decide (0 ≤ numericOf s))
  { skip_exp := stored, skip := numericOf s, errorSet := err }

/-- `NewSkipOp`: initializes the operator fields and runs `_eval_skip`. -/
def NewSkipOp (env : Nat → SIVal) (skip_exp : AExp) : OpSkip :=
  eval_skip env skip_exp

/-- `SkipClone`: re-clones the stored expression and rebuilds the operator
(under the parameter bindings in force at clone time). -/
def SkipClone (env : Nat → SIVal) (op : OpSkip) : OpSkip :=
  NewSkipOp env (AR_EXP_Clone op.skip_exp)

/-- Run-time state of a Skip operator: the skip amount, the number of records
discarded so far, and the child stream still to be consumed. -/
structure SkipState (α : Type) where
  skip : Nat
  skipped : Nat
  child : List α
deriving Repr

/-- The while-loop of `SkipConsume`: given the number of records still to be
discarded and the child stream, return the record produced (if any), the
number of records actually discarded, and the remaining child stream. -/
def skipConsumeGo {α : Type} : Nat → List α → Option α × Nat × List α
  | 0, xs => (xs.head?, 0, xs.tail)
  | _ + 1, [] => (none, 0, [])
  | k + 1, _ :: xs =>
    let r := skipConsumeGo k xs
    (r.1, r.2.1 + 1, r.2.2)

/-- `SkipConsume`: discard child records while `skipped < skip` (returning
none if the child depletes first), then pass the next child record through. -/
def SkipConsume {α : Type} (st : SkipState α) : Option α × SkipState α :=
  let r := skipConsumeGo (st.skip - st.skipped) st.child
  (r.1, ⟨st.skip, st.skipped + r.2.1, r.2.2⟩)

/-- Pull `SkipConsume` repeatedly until it returns none, collecting the
records produced.  The fuel is an upper bound on the number of pulls; each
successful pull consumes at least one child record. -/
def skipRunGo {α : Type} : Nat → SkipState α → List α
  | 0, _ => []
  | fuel + 1, st =>
    match SkipConsume st with
    | (none, _) => []
    | (some x, st2) => x :: skipRunGo fuel st2

/-- Consume a Skip operator to exhaustion. -/
def skipRun {α : Type} (st : SkipState α) : List α :=
  skipRunGo (st.child.length + 1) st

/-- `SkipReset`: clears the skipped counter only. -/
def SkipReset {α : Type} (st : SkipState α) : SkipState α :=
  { st with skipped := 0 }

theorem skipConsumeGo_eq {α : Type} (k : Nat) (xs : List α) :
    skipConsumeGo k xs = ((xs.drop k).head?, min k xs.length, (xs.drop k).tail) := by
  induction k generalizing xs with
  | zero => simp [skipConsumeGo]
  | succ k ih =>
    cases xs with
    | nil => simp [skipConsumeGo]
    | cons a as => simp [skipConsumeGo, ih, Nat.succ_min_succ]

theorem skipRunGo_eq {α : Type} (fuel : Nat) (st : SkipState α)
    (h : st.child.length < fuel) :
    skipRunGo fuel st = st.child.drop (st.skip - st.skipped) := by
  induction fuel generalizing st with
  | zero => omega
  | succ fuel ih =>
    have hc := skipConsumeGo_eq (st.skip - st.skipped) st.child
    rcases hd : st.child.drop (st.skip - st.skipped) with _ | ⟨x, rest⟩
    · simp only [skipRunGo, SkipConsume, hc, hd, List.head?_nil]
    · have hlt : st.skip - st.skipped < st.child.length := by
        by_contra hge
        rw [List.drop_eq_nil_of_le (by omega)] at hd
        exact List.noConfusion hd
      have hmin : min (st.skip - st.skipped) st.child.length = st.skip - st.skipped :=
        Nat.min_eq_left (Nat.le_of_lt hlt)
      simp only [skipRunGo, SkipConsume, hc, hd, List.head?_cons, List.tail_cons, hmin]
      have hzero : st.skip - (st.skipped + (st.skip - st.skipped)) = 0 := by omega
      have hlen : rest.length < fuel := by
        have := List.length_drop (st.skip - st.skipped) st.child
        rw [hd] at this
        simp at this
        omega
      rw [ih ⟨st.skip, st.skipped + (st.skip - st.skipped), rest⟩ hlen]
      simp [hzero]

theorem skipRun_eq_drop {α : Type} (n : Nat) (xs : List α) :
    skipRun ⟨n, 0, xs⟩ = xs.drop n := by
  have := skipRunGo_eq (α := α) (xs.length + 1) ⟨n, 0, xs⟩ (by simp)
  simpa [skipRun] using this

/-- Modelled from the spec: the skip amount a clone of a Skip operator must
resolve to is the value of the original, unevaluated expression under the
parameter bindings supplied at clone time ("the clone resolves to the newly
bound parameter value, never to the constant from an earlier evaluation"). -/
def specCloneSkipValue (env : Nat → SIVal) (e : AExp) : Int :=
  numericOf (AR_EXP_Evaluate env e).1

/-- Claim C5: a Skip operator whose expression evaluated at build time to a
non-negative int64 n, consumed to exhaustion, yields exactly the child stream
with its first n records removed; a child stream shorter than n yields the
empty stream, with no error. -/
theorem C5_skip_consume_drops {α : Type} (env : Nat → SIVal) (e : AExp)
    (xs : List α) (_hok : (NewSkipOp env e).errorSet = false) :
    skipRun ⟨(NewSkipOp env e).skip.toNat, 0, xs⟩ =
      xs.drop (NewSkipOp env e).skip.toNat ∧
    (xs.length < (NewSkipOp env e).skip.toNat →
      skipRun ⟨(NewSkipOp env e).skip.toNat, 0, xs⟩ = []) := by
  refine ⟨skipRun_eq_drop _ xs, fun hlt => ?_⟩
  rw [skipRun_eq_drop _ xs]
  exact List.drop_eq_nil_of_le (Nat.le_of_lt hlt)

/-- Witness for C5 at a concrete input: SKIP 2 over a three-record stream. -/
theorem C5_witness :
    (NewSkipOp (fun _ => SIVal.int64 2) (AExp.param 0)).errorSet = false ∧
    skipRun ⟨(NewSkipOp (fun _ => SIVal.int64 2) (AExp.param 0)).skip.toNat, 0,
        [10, 20, 30]⟩ =
      ([10, 20, 30] : List Nat).drop
        (NewSkipOp (fun _ => SIVal.int64 2) (AExp.param 0)).skip.toNat :=
  ⟨by decide,
   (C5_skip_consume_drops (fun _ => SIVal.int64 2) (AExp.param 0) [10, 20, 30]
     (by decide)).1⟩

/-- Claim C6: cloning a Skip operator re-clones the stored unevaluated
expression, so the clone's skip amount is the value of the original
expression under the parameters bound at clone time; concretely, a plan
built with SKIP on a parameter bound to 2 drops two records from
[1,2,3,4,5,6], and its clone executed with the parameter bound to 5 drops
five records. -/
theorem C6_skip_clone_parameterization :
    (∀ (e : AExp) (env1 env2 : Nat → SIVal),
      (SkipClone env2 (NewSkipOp env1 e)).skip = specCloneSkipValue env2 e) ∧
    skipRun ⟨(NewSkipOp (fun _ => SIVal.int64 2) (AExp.param 0)).skip.toNat, 0,
        [1, 2, 3, 4, 5, 6]⟩ = ([3, 4, 5, 6] : List Nat) ∧
    skipRun ⟨(SkipClone (fun _ => SIVal.int64 5)
          (NewSkipOp (fun _ => SIVal.int64 2) (AExp.param 0))).skip.toNat, 0,
        [1, 2, 3, 4, 5, 6]⟩ = ([6] : List Nat) := by
  refine ⟨fun e env1 env2 => ?_, ?_, ?_⟩
  · cases e <;> rfl
  · rw [show (NewSkipOp (fun _ => SIVal.int64 2) (AExp.param 0)).skip.toNat = 2
        from rfl]
    rw [skipRun_eq_drop]
    rfl
  · rw [show (SkipClone (fun _ => SIVal.int64 5)
        (NewSkipOp (fun _ => SIVal.int64 2) (AExp.param 0))).skip.toNat = 5
        from rfl]
    rw [skipRun_eq_drop]
    rfl

/-- Claim C7: building a Skip operator reports an error if and only if the
expression's value is not an int64 or is negative; on a non-negative int64
no error is reported and the stored skip amount equals that value. -/
theorem C7_eval_skip_validation (env : Nat → SIVal) (e : AExp) :
    ((NewSkipOp env e).errorSet = false ↔
      ∃ n : Int, 0 ≤ n ∧ (AR_EXP_Evaluate env e).1 = .int64 n) ∧
    (∀ n : Int, 0 ≤ n → (AR_EXP_Evaluate env e).1 = .int64 n →
      (NewSkipOp env e).errorSet = false ∧ (NewSkipOp env e).skip = n) := by
  constructor
  · rcases hv : (AR_EXP_Evaluate env e).1 with _ | b | n | _ | _ <;>
      simp [NewSkipOp, eval_skip, hv, siIsInt64, numericOf]
  · intro n hn hv
    simp [NewSkipOp, eval_skip, hv, siIsInt64, numericOf, hn]

/-- Witness for C7 at a concrete input: constant 3 validates and is stored. -/
theorem C7_witness :
    (NewSkipOp (fun _ => SIVal.nullv) (AExp.const (SIVal.int64 3))).errorSet
        = false ∧
    (NewSkipOp (fun _ => SIVal.nullv) (AExp.const (SIVal.int64 3))).skip = 3 :=
  (C7_eval_skip_validation (fun _ => SIVal.nullv)
    (AExp.const (SIVal.int64 3))).2 3 (by decide) (by decide)

--------------------------------------------------------------------------------
-- The NodeByLabelScan operator (op_node_by_label_scan.c)
--------------------------------------------------------------------------------

/-- Modelled from the spec: the unsigned ID range held by a label scan
(`UnsignedRange` lives in util/range, which is not part of src/).  The range
carries inclusive/exclusive flags for both bounds; a fresh range is
[0 ... UINT64_MAX], both inclusive. -/
structure UnsignedRange where
  min : Nat
  max : Nat
  include_min : Bool
  include_max : Bool
deriving DecidableEq, Repr

/-- Modelled from the spec: tighten the range with a lower bound, as in
`UnsignedRange_TightenRange(range, OP_GE, v)`. -/
def UnsignedRange_TightenGE (r : UnsignedRange) (v : Nat) : UnsignedRange :=
  if r.min < v then { r with min := v, include_min := true } else r

/-- Modelled from the spec: tighten the range with a strict upper bound, as
in `UnsignedRange_TightenRange(range, OP_LT, v)`. -/
def UnsignedRange_TightenLT (r : UnsignedRange) (v : Nat) : UnsignedRange :=
  if v ≤ r.max then { r with max := v, include_max := false } else r

/-- The effective inclusive lower bound of a range, as an integer. -/
def rangeLoI (r : UnsignedRange) : Int :=
  if r.include_min then (r.min : Int) else (r.min : Int) + 1

/-- The effective inclusive upper bound of a range, as an integer. -/
def rangeHiI (r : UnsignedRange) : Int :=
  if r.include_max then (r.max : Int) else (r.max : Int) - 1

/-- Modelled from the spec: a range is valid when its effective interval is
non-empty ("rejecting when the range becomes invalid (max < min)"). -/
def UnsignedRange_IsValid (r : UnsignedRange) : Bool :=
  decide (rangeLoI r ≤ rangeHiI r)

/-- `_ConstructIterator`: tighten the ID range to [0, nrows), reject
(`GrB_DIMENSION_MISMATCH`, i.e. none) when the range becomes invalid, and
otherwise attach a range-restricted iterator to the label matrix.  The label
matrix is diagonal, so it is embedded as the sorted list of node ids that
carry the label; attaching over [minId, maxId] restricts to that interval. -/
def ConstructIterator (labelIds : List Nat) (nrows : Nat)
    (range : UnsignedRange) : Option (List Nat) :=
  let r1 := UnsignedRange_TightenGE range 0
  let r2 := UnsignedRange_TightenLT r1 nrows
  if UnsignedRange_IsValid r2 then
    let minId := if r2.include_min then r2.min else r2.min + 1
    let maxId := if r2.include_max then r2.max else r2.max - 1
    some (labelIds.filter (fun i => decide (minId ≤ i) && decide (i ≤ maxId)))
  else none

/-- The consume function installed by `NodeByLabelScanInit`. -/
inductive ConsumeMode where
  | standard
  | fromChild
  | noOp
deriving DecidableEq, Repr

/-- `NodeByLabelScanInit`: with a child, consume from the child; with an
unknown label, use the no-op consume; otherwise construct the iterator and
fall back to the no-op consume if the range was rejected.  Returns the
installed consume mode and the attached iterator. -/
def NodeByLabelScanInit (childCount : Nat) (labelKnown : Bool)
    (labelIds : List Nat) (nrows : Nat) (range : UnsignedRange) :
    ConsumeMode × List Nat :=
  if 0 < childCount then (.fromChild, [])
  else if labelKnown = false then (.noOp, [])
  else
    match ConstructIterator labelIds nrows range with
    | some it => (.standard, it)
    | none => (.noOp, [])

/-- Run-time state of a standalone label scan: the iterator suffix and the
held child record. -/
structure LabelScanState where
  iter : List Nat
  child_record : Option Nat
deriving DecidableEq, Repr

/-- `NodeByLabelScanConsume` (standalone): yield the next node id from the
iterator, or none when exhausted. -/
def NodeByLabelScanConsume (st : LabelScanState) : Option Nat × LabelScanState :=
  match st.iter with
  | [] => (none, st)
  | i :: rest => (some i, { st with iter := rest })

/-- `NodeByLabelScanNoOp`: the no-op consume function always returns none. -/
def NodeByLabelScanNoOp (st : LabelScanState) : Option Nat × LabelScanState :=
  (none, st)

/-- Pull the standalone consume function until it returns none. -/
def labelScanRunGo : Nat → LabelScanState → List Nat
  | 0, _ => []
  | fuel + 1, st =>
    match NodeByLabelScanConsume st with
    | (none, _) => []
    | (some i, st2) => i :: labelScanRunGo fuel st2

/-- Consume a standalone label scan to exhaustion. -/
def labelScanRun (st : LabelScanState) : List Nat :=
  labelScanRunGo (st.iter.length + 1) st

/-- `NodeByLabelScanReset`: drop the held child record and rebuild the
iterator via `_ResetIterator`, which invokes `_ConstructIterator` and keeps
the previous iterator if construction fails. -/
def NodeByLabelScanReset (labelIds : List Nat) (nrows : Nat)
    (range : UnsignedRange) (st : LabelScanState) : LabelScanState :=
  { iter := (ConstructIterator labelIds nrows range).getD st.iter,
    child_record := none }

theorem labelScanRunGo_eq (fuel : Nat) (st : LabelScanState)
    (h : st.iter.length < fuel) : labelScanRunGo fuel st = st.iter := by
  induction fuel generalizing st with
  | zero => omega
  | succ fuel ih =>
    rcases hi : st.iter with _ | ⟨i, rest⟩
    · simp [labelScanRunGo, NodeByLabelScanConsume, hi]
    · have : rest.length < fuel := by
        have := congrArg List.length hi
        simp at this
        omega
      simp [labelScanRunGo, NodeByLabelScanConsume, hi,
        ih { st with iter := rest } this]

theorem labelScanRun_eq (st : LabelScanState) : labelScanRun st = st.iter :=
  labelScanRunGo_eq _ st (by omega)

theorem tightenGE_zero (r : UnsignedRange) : UnsignedRange_TightenGE r 0 = r := by
  simp [UnsignedRange_TightenGE]

theorem constructIterator_mem (labelIds : List Nat) (nrows : Nat)
    (range : UnsignedRange) (it : List Nat)
    (h : ConstructIterator labelIds nrows range = some it) (i : Nat) :
    i ∈ it ↔ i ∈ labelIds ∧ i < nrows ∧
      rangeLoI range ≤ (i : Int) ∧ (i : Int) ≤ rangeHiI range := by
  rcases hv : UnsignedRange_IsValid (UnsignedRange_TightenLT range nrows) with _ | _
  · simp [ConstructIterator, tightenGE_zero, hv] at h
  · simp only [ConstructIterator, tightenGE_zero, hv, if_true, Option.some.injEq] at h
    subst h
    rw [UnsignedRange_IsValid, decide_eq_true_eq] at hv
    rw [List.mem_filter]
    simp only [Bool.and_eq_true, decide_eq_true_eq]
    rcases range with ⟨rmin, rmax, imin, imax⟩
    by_cases hm : nrows ≤ rmax <;>
      cases imin <;> cases imax <;>
      simp only [UnsignedRange_TightenLT, rangeLoI, rangeHiI, hm, if_pos,
        if_neg, if_true, if_false, Bool.false_eq_true, not_false_eq_true,
        ite_true, ite_false] at hv ⊢ <;>
      (constructor
       · rintro ⟨h1, h2⟩
         exact ⟨h1, by omega⟩
       · rintro ⟨h1, h2⟩
         exact ⟨h1, by omega⟩)

/-- Claim C8: on init of NodeByLabelScan, a child switches consume to the
child-driven variant; an unknown label switches to the no-op consume that
always returns none; otherwise the iterator is built over the label matrix
with the range tightened to [0, nrows), and a rejected (empty) range also
falls back to the no-op consume, so the scan exhausts instead of erroring. -/
theorem C8_node_by_label_scan_init (childCount : Nat) (labelKnown : Bool)
    (labelIds : List Nat) (nrows : Nat) (range : UnsignedRange) :
    (0 < childCount →
      (NodeByLabelScanInit childCount labelKnown labelIds nrows range).1 =
        .fromChild) ∧
    (childCount = 0 → labelKnown = false →
      (NodeByLabelScanInit childCount labelKnown labelIds nrows range).1 =
        .noOp) ∧
    (childCount = 0 → labelKnown = true →
      ConstructIterator labelIds nrows range = none →
      (NodeByLabelScanInit childCount labelKnown labelIds nrows range).1 =
        .noOp) ∧
    (childCount = 0 → labelKnown = true →
      ∀ it, ConstructIterator labelIds nrows range = some it →
        (NodeByLabelScanInit childCount labelKnown labelIds nrows range).1 =
            .standard ∧
        (NodeByLabelScanInit childCount labelKnown labelIds nrows range).2 =
            it ∧
        (∀ i, i ∈ it ↔ i ∈ labelIds ∧ i < nrows ∧
          rangeLoI range ≤ (i : Int) ∧ (i : Int) ≤ rangeHiI range)) ∧
    (∀ st, NodeByLabelScanNoOp st = (none, st)) := by
  refine ⟨fun hc => ?_, fun hc hl => ?_, fun hc hl hn => ?_,
    fun hc hl it hs => ?_, fun st => rfl⟩
  · simp [NodeByLabelScanInit, hc]
  · subst hc hl
    simp [NodeByLabelScanInit]
  · subst hc hl
    simp [NodeByLabelScanInit, hn]
  · subst hc hl
    refine ⟨?_, ?_, constructIterator_mem labelIds nrows range it hs⟩ <;>
      simp [NodeByLabelScanInit, hs]

/-- Witness for C8 at a concrete input: label ids [0,2,4], two matrix rows,
default-like range [0,100]. -/
theorem C8_witness :
    (NodeByLabelScanInit 0 true [0, 2, 4] 3
        (UnsignedRange.mk 0 100 true true)).1 = .standard ∧
    (NodeByLabelScanInit 0 true [0, 2, 4] 3
        (UnsignedRange.mk 0 100 true true)).2 = [0, 2] ∧
    (2 ∈ ([0, 2] : List Nat) ↔ 2 ∈ ([0, 2, 4] : List Nat) ∧ 2 < 3 ∧
      rangeLoI (UnsignedRange.mk 0 100 true true) ≤ (2 : Int) ∧
      (2 : Int) ≤ rangeHiI (UnsignedRange.mk 0 100 true true)) := by
  have H := (C8_node_by_label_scan_init 0 true [0, 2, 4] 3
    (UnsignedRange.mk 0 100 true true)).2.2.2.1 rfl rfl [0, 2] (by decide)
  exact ⟨H.1, H.2.1, H.2.2 2⟩

/-- Claim C9: reset followed by consumption replays the same stream, for the
operators present in the source: NodeByLabelScan's reset drops the held
child record and rebuilds the iterator, so the standalone scan yields the
same node ids in the same order as a freshly initialized scan; Skip's reset
clears only its skipped counter, so it skips the same number of records
again on the replayed child stream. -/
theorem C9_reset_replay (labelIds : List Nat) (nrows : Nat)
    (range : UnsignedRange) (st : LabelScanState) (it : List Nat)
    (hit : ConstructIterator labelIds nrows range = some it)
    (sk : SkipState Nat) :
    (NodeByLabelScanReset labelIds nrows range st).child_record = none ∧
    labelScanRun (NodeByLabelScanReset labelIds nrows range st) =
      labelScanRun { iter := it, child_record := none } ∧
    SkipReset sk = { skip := sk.skip, skipped := 0, child := sk.child } ∧
    skipRun ⟨(SkipReset sk).skip, (SkipReset sk).skipped,
        labelScanRun (NodeByLabelScanReset labelIds nrows range st)⟩ =
      (labelScanRun { iter := it, child_record := none }).drop sk.skip := by
  have hres : NodeByLabelScanReset labelIds nrows range st =
      { iter := it, child_record := none } := by
    simp [NodeByLabelScanReset, hit]
  refine ⟨by simp [hres], by rw [hres], rfl, ?_⟩
  rw [hres]
  exact skipRun_eq_drop sk.skip _

/-- Witness for C9 at a concrete input: a partially consumed scan and a skip
operator with a stale skipped counter both replay after reset. -/
theorem C9_witness :
    (NodeByLabelScanReset [0, 2, 4] 3 (UnsignedRange.mk 0 100 true true)
        { iter := [4], child_record := some 7 }).child_record = none ∧
    labelScanRun (NodeByLabelScanReset [0, 2, 4] 3
        (UnsignedRange.mk 0 100 true true)
        { iter := [4], child_record := some 7 }) =
      labelScanRun { iter := [0, 2], child_record := none } ∧
    SkipReset (SkipState.mk 1 1 ([9] : List Nat)) =
      { skip := 1, skipped := 0, child := [9] } ∧
    skipRun ⟨(SkipReset (SkipState.mk 1 1 ([9] : List Nat))).skip,
        (SkipReset (SkipState.mk 1 1 ([9] : List Nat))).skipped,
        labelScanRun (NodeByLabelScanReset [0, 2, 4] 3
          (UnsignedRange.mk 0 100 true true)
          { iter := [4], child_record := some 7 })⟩ =
      (labelScanRun { iter := [0, 2], child_record := none }).drop 1 :=
  C9_reset_replay [0, 2, 4] 3 (UnsignedRange.mk 0 100 true true)
    { iter := [4], child_record := some 7 } [0, 2] (by decide)
    (SkipState.mk 1 1 ([9] : List Nat))

--------------------------------------------------------------------------------
-- The index populator (src/unnamed/part_000)
--------------------------------------------------------------------------------

-- The claims assume a graph that is not mutated while the populator runs and
-- an index that stays in state IDX_POPULATING, so the matrices are fixed
-- sorted tuple lists, re-attaching between batches yields the same list, and
-- the abort branch never fires.

/-- One batch of `_Index_PopulateNodeIndex`: attach to the label matrix,
`jump_to_row rowIdx`, and take up to 1000 tuples, indexing the node id (the
row) of each.  Tuples are `(row, col)` pairs of the boolean label matrix. -/
def nodeBatchIds (m : List (Nat × Nat)) (rowIdx : Nat) : List Nat :=
  ((m.dropWhile (fun t => decide (t.1 < rowIdx))).take 1000).map (fun t => t.1)

/-- The batch loop of `_Index_PopulateNodeIndex`, returning the list of
batches (each batch the list of node ids indexed in it).  A full batch of
1000 continues from row `last id + 1`; a shorter batch means the iterator
depleted and the loop exits.  The fuel bounds the number of batches; with
fuel `m.length + 1` it never runs out (proved below for sorted matrices). -/
def nodePopBatchesGo : Nat → List (Nat × Nat) → Nat → List (List Nat)
  | 0, _, _ => []
  | fuel + 1, m, rowIdx =>
    let ids := nodeBatchIds m rowIdx
    if ids.length = 1000 then
      ids :: nodePopBatchesGo fuel m (ids.getLast?.getD 0 + 1)
    else [ids]

/-- All batches produced by `_Index_PopulateNodeIndex` on a static graph. -/
def nodePopBatches (m : List (Nat × Nat)) : List (List Nat) :=
  nodePopBatchesGo (m.length + 1) m 0

/-- Indexing one relation-matrix value as the batch body of
`_Index_PopulateEdgeIndex` does with the current `edge_id` register:
a `SINGLE_EDGE` value indexes that one edge; a multi-edge value indexes
every edge of the array, leaving the register at the last array element. -/
def indexSlotVal : SlotVal → List Nat × SlotVal
  | .single i => ([i], .single i)
  | .multi ids =>
    (ids, match ids.getLast? with
          | none => .multi []
          | some j => .single j)

/-- The do-while batch loop of `_Index_PopulateEdgeIndex`.  `cap` is the
remaining batch capacity (1000 at batch start), `reg` the current `edge_id`
register, `(s, d)` the current `(src_id, dest_id)`, and `ts` the iterator
suffix after the already-fetched current entry.  Note the first iteration
indexes according to `reg`, which the skip loop did not refresh (it passes
NULL for the value), not according to the stored value of the current entry.
Returns (indexed edge ids, final register, last src, last dest, number of
matrix entries processed). -/
def edgeBatchGo : Nat → SlotVal → Nat → Nat → List Slot →
    List Nat × SlotVal × Nat × Nat × Nat
  | 0, reg, s, d, _ => ([], reg, s, d, 0)
  | 1, reg, s, d, _ =>
    let p := indexSlotVal reg
    (p.1, p.2, s, d, 1)
  | cap + 2, reg, s, d, ts =>
    let p := indexSlotVal reg
    match ts with
    | [] => (p.1, p.2, s, d, 1)
    | t :: ts2 =>
      let q := edgeBatchGo (cap + 1) t.val t.src t.dest ts2
      (p.1 ++ q.1, q.2.1, q.2.2.1, q.2.2.2.1, q.2.2.2.2 + 1)

/-- The resume phase of an edge-populator batch: `jump_to_row prev_src`
positions the iterator at the first entry whose row is at least `prev_src`,
then the skip loop advances while the fetched entry has
`src == prev_src && dest <= prev_dest`.  The returned suffix starts at the
entry on which the skip loop exited (already fetched, value discarded). -/
def skipPhase (m : List Slot) (prevSrc prevDest : Nat) : List Slot :=
  (m.dropWhile (fun t => decide (t.src < prevSrc))).dropWhile
    (fun t => decide (t.src = prevSrc) && decide (t.dest ≤ prevDest))

/-- The outer batch loop of `_Index_PopulateEdgeIndex` on a static graph:
state between batches is the last `(src_id, dest_id)` pair and the stale
`edge_id` register.  A batch that processed exactly 1000 entries continues;
otherwise the populator exits.  An empty suffix after the skip phase exits
immediately. -/
def edgePopGo : Nat → List Slot → SlotVal → Nat → Nat → List Nat
  | 0, _, _, _, _ => []
  | fuel + 1, m, reg, s, d =>
    match skipPhase m s d with
    | [] => []
    | t :: ts =>
      let p := edgeBatchGo 1000 reg t.src t.dest ts
      if p.2.2.2.2 = 1000 then
        p.1 ++ edgePopGo fuel m p.2.1 p.2.2.1 p.2.2.2.1
      else p.1

/-- All edge ids passed to `Index_IndexEdge` by `_Index_PopulateEdgeIndex`
on a static graph: `src_id`, `dest_id` and `edge_id` start at 0. -/
def edgePopulate (m : List Slot) : List Nat :=
  edgePopGo (m.length + 1) m (.single 0) 0 0

/-- Claim C1 (evaluation at the failing input): a relation matrix holding a
single edge, id 7, at position (0,0) — the edge-index populator indexes no
edge at all.  On the first batch `prev_src = prev_dest = 0` although nothing
has been indexed yet, so the skip loop discards the (0,0) entry and the
iterator is exhausted before the batch loop starts. -/
theorem C1_edge_populator_misses_zero_zero :
    edgePopulate [⟨0, 0, .single 7⟩] = [] ∧
    ¬ (7 ∈ edgePopulate [⟨0, 0, .single 7⟩]) := by
  constructor <;> decide

/-- Counterexample to claim C2 as stated: on a relation matrix whose only
entry is edge 9 at (0,1), the first batch indexes edge 0 — the stale
`edge_id` register — instead of the entry's own stored value 9, because the
skip loop discards the value of the entry it fetched. -/
theorem C2_counterexample :
    edgePopulate [⟨0, 1, .single 9⟩] = [0] ∧
    ¬ (9 ∈ edgePopulate [⟨0, 1, .single 9⟩]) := by
  constructor <;> decide

/-- On a list where the tested property can only turn from true to false
once (each later true forces every earlier element true), dropping the true
prefix is the same as filtering the property out. -/
theorem dropWhile_eq_filter_mono {α : Type} (p : α → Bool) :
    ∀ l : List α, List.Pairwise (fun a b => p b = true → p a = true) l →
      l.dropWhile p = l.filter (fun a => !(p a)) := by
  intro l
  induction l with
  | nil => intro _; rfl
  | cons a l ih =>
    intro hs
    rcases List.pairwise_cons.mp hs with ⟨hrel, hl⟩
    rcases hp : p a with _ | _
    · rw [List.dropWhile_cons_of_neg (by simp [hp]), List.filter_cons,
        if_pos (by simp [hp])]
      congr 1
      exact (List.filter_eq_self.mpr fun y hy => by
        rcases hq : p y with _ | _
        · simp
        · exact absurd (hrel y hy hq) (by simp [hp])).symm
    · rw [List.dropWhile_cons_of_pos (by simp [hp]), List.filter_cons,
        if_neg (by simp [hp]), ih hl]

theorem skipPhase_eq_filter (m : List Slot) (ps pd : Nat) (hs : slotsSorted m) :
    skipPhase m ps pd = m.filter
      (fun t => decide (ps < t.src) || (decide (t.src = ps) && decide (pd < t.dest))) := by
  have hrow : List.Pairwise
      (fun a b : Slot => decide (b.src < ps) = true → decide (a.src < ps) = true) m := by
    refine hs.imp ?_
    intro a b hab
    rcases hab with hlt | ⟨heq, _⟩ <;> simp_all <;> omega
  have h1 : m.dropWhile (fun t => decide (t.src < ps)) =
      m.filter (fun t => !(decide (t.src < ps))) :=
    dropWhile_eq_filter_mono _ m hrow
  have hs1 : slotsSorted (m.filter (fun t => !(decide (t.src < ps)))) :=
    hs.filter _
  have hrow2 : List.Pairwise (fun a b : Slot =>
      (decide (b.src = ps) && decide (b.dest ≤ pd)) = true →
      (decide (a.src = ps) && decide (a.dest ≤ pd)) = true)
      (m.filter (fun t => !(decide (t.src < ps)))) := by
    refine List.Pairwise.imp_of_mem ?_ hs1
    intro a b ha hb hab
    have ha2 : ¬ a.src < ps := by
      have := (List.mem_filter.mp ha).2
      simpa using this
    rcases hab with hlt | ⟨heq, hd⟩ <;> intro hbt <;>
      simp only [Bool.and_eq_true, decide_eq_true_eq] at hbt ⊢ <;> omega
  have h2 : skipPhase m ps pd =
      (m.filter (fun t => !(decide (t.src < ps)))).filter
        (fun t => !(decide (t.src = ps) && decide (t.dest ≤ pd))) := by
    rw [skipPhase, h1, dropWhile_eq_filter_mono _ _ hrow2]
  rw [h2, List.filter_filter]
  refine List.filter_congr ?_
  intro t _
  rw [Bool.eq_iff_iff]
  simp only [Bool.and_eq_true, Bool.or_eq_true, Bool.not_eq_true',
    Bool.and_eq_false_iff, decide_eq_true_eq, decide_eq_false_iff_not]
  omega

/-- The first matrix entry processed by a batch of the edge-index populator
is indexed according to the held `edge_id` register (whatever the entry's
own stored value is): the batch output always starts with the expansion of
the register. -/
theorem edgeBatchGo_first (cap : Nat) (hcap : 0 < cap) (reg : SlotVal)
    (s d : Nat) (ts : List Slot) :
    ∃ rest, (edgeBatchGo cap reg s d ts).1 = (indexSlotVal reg).1 ++ rest := by
  match cap, hcap with
  | 1, _ => exact ⟨[], by simp [edgeBatchGo]⟩
  | cap + 2, _ =>
    cases ts with
    | nil => exact ⟨[], by simp [edgeBatchGo]⟩
    | cons t ts2 =>
      exact ⟨(edgeBatchGo (cap + 1) t.val t.src t.dest ts2).1, by
        simp [edgeBatchGo]⟩

/-- Claim C2 (amended): on a sorted relation matrix the skip phase leaves the
iterator on exactly the entries lexicographically greater than
`(prev_src, prev_dest)` — so indexing resumes at the smallest entry strictly
above the last position, but on the first batch (where nothing has been
indexed and the position is still (0,0)) an entry at (0,0) is wrongly
skipped — and the first entry of the batch is indexed with the stale
`edge_id` register rather than with its own stored value. -/
theorem C2_skip_resume_amended (m : List Slot) (ps pd : Nat)
    (hs : slotsSorted m) :
    skipPhase m ps pd = m.filter
      (fun t => decide (ps < t.src) || (decide (t.src = ps) && decide (pd < t.dest))) ∧
    (∀ cap : Nat, 0 < cap → ∀ (reg : SlotVal) (s d : Nat) (ts : List Slot),
      ∃ rest, (edgeBatchGo cap reg s d ts).1 = (indexSlotVal reg).1 ++ rest) :=
  ⟨skipPhase_eq_filter m ps pd hs,
   fun cap hcap reg s d ts => edgeBatchGo_first cap hcap reg s d ts⟩

/-- Witness for the amended C2 at a concrete input: the skip phase with
previous position (0,2) drops the entries up to and including (0,2) and
resumes at (1,1). -/
theorem C2_amended_witness :
    slotsSorted [⟨0, 0, .single 1⟩, ⟨0, 2, .single 2⟩, ⟨1, 1, .multi [3, 4]⟩] ∧
    skipPhase [⟨0, 0, .single 1⟩, ⟨0, 2, .single 2⟩, ⟨1, 1, .multi [3, 4]⟩] 0 2 =
      List.filter
        (fun t => decide (0 < t.src) || (decide (t.src = 0) && decide (2 < t.dest)))
        [⟨0, 0, .single 1⟩, ⟨0, 2, .single 2⟩, ⟨1, 1, .multi [3, 4]⟩] :=
  ⟨by decide,
   (C2_skip_resume_amended
     [⟨0, 0, .single 1⟩, ⟨0, 2, .single 2⟩, ⟨1, 1, .multi [3, 4]⟩] 0 2
     (by decide)).1⟩

theorem nodeBatchIds_length_le (m : List (Nat × Nat)) (r : Nat) :
    (nodeBatchIds m r).length ≤ 1000 := by
  simp only [nodeBatchIds, List.length_map]
  exact le_trans (List.length_take_le 1000 _) (le_refl 1000)

theorem nodePopBatchesGo_mem_le (fuel : Nat) :
    ∀ (m : List (Nat × Nat)) (r : Nat) (b : List Nat),
      b ∈ nodePopBatchesGo fuel m r → b.length ≤ 1000 := by
  induction fuel with
  | zero => intro m r b hb; simp [nodePopBatchesGo] at hb
  | succ fuel ih =>
    intro m r b hb
    rw [nodePopBatchesGo] at hb
    by_cases hfull : (nodeBatchIds m r).length = 1000
    · rw [if_pos hfull] at hb
      rcases List.mem_cons.mp hb with hb | hb
      · subst hb; exact nodeBatchIds_length_le m r
      · exact ih m _ b hb
    · rw [if_neg hfull] at hb
      rcases List.mem_singleton.mp hb with rfl
      exact nodeBatchIds_length_le m r

theorem nodePopBatchesGo_head (fuel : Nat) (m : List (Nat × Nat)) (r : Nat)
    (h : 0 < fuel) :
    (nodePopBatchesGo fuel m r).head? = some (nodeBatchIds m r) := by
  match fuel, h with
  | fuel + 1, _ =>
    rw [nodePopBatchesGo]
    by_cases hfull : (nodeBatchIds m r).length = 1000
    · rw [if_pos hfull]; rfl
    · rw [if_neg hfull]; rfl

theorem nodePopBatchesGo_chain (fuel : Nat) :
    ∀ (m : List (Nat × Nat)) (r : Nat),
      List.Chain' (fun b1 b2 => b1.length = 1000 ∧
        b2 = nodeBatchIds m (b1.getLast?.getD 0 + 1)) (nodePopBatchesGo fuel m r) := by
  induction fuel with
  | zero => intro m r; simp [nodePopBatchesGo]
  | succ fuel ih =>
    intro m r
    rw [nodePopBatchesGo]
    by_cases hfull : (nodeBatchIds m r).length = 1000
    · rw [if_pos hfull]
      rw [List.chain'_cons']
      refine ⟨?_, ih m _⟩
      intro b hb
      rcases fuel with _ | fuel
      · simp [nodePopBatchesGo] at hb
      · rw [nodePopBatchesGo_head (fuel + 1) m _ (Nat.succ_pos fuel)] at hb
        rcases Option.some.inj hb with rfl
        exact ⟨hfull, rfl⟩
    · rw [if_neg hfull]
      simp

theorem le_getLastD (l : List Nat) (hs : List.Pairwise (fun a b => a ≤ b) l) :
    ∀ x ∈ l, x ≤ l.getLast?.getD 0 := by
  induction l with
  | nil => intro x hx; simp at hx
  | cons a l ih =>
    intro x hx
    rcases List.pairwise_cons.mp hs with ⟨hrel, hl⟩
    rcases l with _ | ⟨b, l2⟩
    · rcases List.mem_singleton.mp hx with rfl
      simp
    · rw [List.getLast?_cons_cons]
      rcases List.mem_cons.mp hx with rfl | hx2
      · exact le_trans (hrel b (by simp)) (ih hl b (by simp))
      · exact ih hl x hx2

theorem rows_le_getLast (l : List (Nat × Nat)) (hs : List.Pairwise lexLt l) :
    ∀ t ∈ l, t.1 ≤ ((l.map (fun u => u.1)).getLast?.getD 0) := by
  intro t ht
  have hrows : List.Pairwise (fun a b : Nat => a ≤ b) (l.map (fun u => u.1)) := by
    rw [List.pairwise_map]
    refine hs.imp ?_
    intro a b hab
    rcases hab with h | ⟨h, _⟩ <;> omega
  exact le_getLastD _ hrows t.1 (List.mem_map_of_mem _ ht)

theorem nodeDropWhile_eq_filter (m : List (Nat × Nat)) (r : Nat)
    (hs : List.Pairwise lexLt m) :
    m.dropWhile (fun t => decide (t.1 < r)) =
      m.filter (fun t => !(decide (t.1 < r))) := by
  apply dropWhile_eq_filter_mono
  refine hs.imp ?_
  intro a b hab
  intro hb
  simp only [decide_eq_true_eq] at hb ⊢
  rcases hab with h | ⟨h, _⟩ <;> omega

theorem nodeBatch_progress (m : List (Nat × Nat)) (r : Nat)
    (hs : List.Pairwise lexLt m)
    (hfull : (nodeBatchIds m r).length = 1000) :
    (m.dropWhile
        (fun t => decide (t.1 < (nodeBatchIds m r).getLast?.getD 0 + 1))).length
      + 1000 ≤ (m.dropWhile (fun t => decide (t.1 < r))).length := by
  have hdw1 := nodeDropWhile_eq_filter m r hs
  set F := m.filter (fun t : Nat × Nat => !(decide (t.1 < r))) with hF
  have hbid : nodeBatchIds m r = (F.take 1000).map (fun u => u.1) := by
    rw [nodeBatchIds, hdw1]
  have hsF : List.Pairwise lexLt F := hs.filter _
  have hsB : List.Pairwise lexLt (F.take 1000) :=
    hsF.sublist (List.take_sublist 1000 F)
  have hB : (F.take 1000).length = 1000 := by
    rw [hbid, List.length_map] at hfull
    exact hfull
  have hFlen : 1000 ≤ F.length := by
    have := List.length_take 1000 F
    omega
  set last := (nodeBatchIds m r).getLast?.getD 0 with hlastdef
  have hBmax : ∀ t ∈ F.take 1000, t.1 ≤ last := by
    intro t ht
    rw [hlastdef, hbid]
    exact rows_le_getLast (F.take 1000) hsB t ht
  have hrlast : r ≤ last := by
    have hne : F.take 1000 ≠ [] := by
      intro h
      rw [h] at hB
      simp at hB
    obtain ⟨b0, hb0⟩ := List.exists_mem_of_ne_nil _ hne
    have hb0F : b0 ∈ F := List.mem_of_mem_take hb0
    have hq1 : ¬ (b0.1 < r) := by
      have := (List.mem_filter.mp hb0F).2
      simpa using this
    have := hBmax b0 hb0
    omega
  have hdw2 := nodeDropWhile_eq_filter m (last + 1) hs
  rw [hdw2, hdw1]
  have hsplit : m.filter (fun t : Nat × Nat => !(decide (t.1 < last + 1))) =
      F.filter (fun t : Nat × Nat => !(decide (t.1 < last + 1))) := by
    rw [hF, List.filter_filter]
    refine List.filter_congr ?_
    intro t _
    rw [Bool.eq_iff_iff]
    simp only [Bool.and_eq_true, Bool.not_eq_true', decide_eq_false_iff_not]
    omega
  rw [hsplit]
  have hFsplit : F.filter (fun t : Nat × Nat => !(decide (t.1 < last + 1))) =
      (F.take 1000).filter (fun t : Nat × Nat => !(decide (t.1 < last + 1))) ++
      (F.drop 1000).filter (fun t : Nat × Nat => !(decide (t.1 < last + 1))) := by
    rw [← List.filter_append, List.take_append_drop]
  have hBnil : (F.take 1000).filter
      (fun t : Nat × Nat => !(decide (t.1 < last + 1))) = [] := by
    rw [List.filter_eq_nil_iff]
    intro t ht
    have := hBmax t ht
    simp only [Bool.not_eq_true', decide_eq_false_iff_not, Decidable.not_not]
    omega
  have hdroplen : ((F.drop 1000).filter
      (fun t : Nat × Nat => !(decide (t.1 < last + 1)))).length ≤
      (F.drop 1000).length := List.length_filter_le _ _
  have hdl : (F.drop 1000).length = F.length - 1000 := List.length_drop 1000 F
  have hFful : F.length = 1000 + (F.drop 1000).length := by omega
  rw [hFsplit, hBnil, List.nil_append]
  have hFm : (m.filter (fun t : Nat × Nat => !(decide (t.1 < r)))).length
      = F.length := by rw [hF]
  rw [hFm]
  omega

theorem nodePopGo_last_lt (fuel : Nat) :
    ∀ (m : List (Nat × Nat)) (r : Nat), List.Pairwise lexLt m →
      (m.dropWhile (fun t => decide (t.1 < r))).length < fuel →
      ((nodePopBatchesGo fuel m r).getLast?.getD []).length < 1000 := by
  induction fuel with
  | zero => intro m r _ h; omega
  | succ fuel ih =>
    intro m r hs hlen
    rw [nodePopBatchesGo]
    by_cases hfull : (nodeBatchIds m r).length = 1000
    · rw [if_pos hfull]
      have hprog := nodeBatch_progress m r hs hfull
      have hmin : (nodeBatchIds m r).length =
          min 1000 (m.dropWhile (fun t => decide (t.1 < r))).length := by
        simp [nodeBatchIds, List.length_map, List.length_take]
      have hSr : 1000 ≤ (m.dropWhile (fun t => decide (t.1 < r))).length := by
        omega
      have hfuel1 : 0 < fuel := by omega
      have hrec := ih m ((nodeBatchIds m r).getLast?.getD 0 + 1) hs (by omega)
      have hhead := nodePopBatchesGo_head fuel m
        ((nodeBatchIds m r).getLast?.getD 0 + 1) hfuel1
      rcases hGo : nodePopBatchesGo fuel m
          ((nodeBatchIds m r).getLast?.getD 0 + 1) with _ | ⟨b, bs⟩
      · rw [hGo] at hhead
        simp at hhead
      · rw [hGo] at hrec
        rw [List.getLast?_cons_cons]
        exact hrec
    · rw [if_neg hfull]
      have := nodeBatchIds_length_le m r
      have hsingle : (([nodeBatchIds m r] : List (List Nat)).getLast?.getD [])
          = nodeBatchIds m r := rfl
      rw [hsingle]
      omega

/-- Claim C3: the node-index populator indexes at most 1000 nodes per batch;
a batch that is followed by another batch processed exactly 1000 nodes and
the following batch resumes at row `last indexed id + 1` (so the loop exits
exactly when a batch processes fewer than 1000 nodes); the first batch
starts at row 0, and the final batch is shorter than 1000 (the iterator
depleted). -/
theorem C3_node_populator_batches (m : List (Nat × Nat))
    (hs : List.Pairwise lexLt m) :
    (∀ b ∈ nodePopBatches m, b.length ≤ 1000) ∧
    (nodePopBatches m).head? = some (nodeBatchIds m 0) ∧
    List.Chain' (fun b1 b2 => b1.length = 1000 ∧
      b2 = nodeBatchIds m (b1.getLast?.getD 0 + 1)) (nodePopBatches m) ∧
    ((nodePopBatches m).getLast?.getD []).length < 1000 := by
  refine ⟨fun b hb => nodePopBatchesGo_mem_le _ m 0 b hb,
    nodePopBatchesGo_head _ m 0 (Nat.succ_pos _),
    nodePopBatchesGo_chain _ m 0,
    nodePopGo_last_lt _ m 0 hs ?_⟩
  have hsub : List.Sublist (m.dropWhile (fun t : Nat × Nat => decide (t.1 < 0))) m :=
    List.dropWhile_sublist _
  have := hsub.length_le
  omega

/-- Witness for C3 at a concrete input: a diagonal label matrix with three
entries. -/
theorem C3_witness :
    List.Pairwise lexLt [(0, 0), (1, 1), (3, 3)] ∧
    ((∀ b ∈ nodePopBatches [(0, 0), (1, 1), (3, 3)], b.length ≤ 1000) ∧
    (nodePopBatches [(0, 0), (1, 1), (3, 3)]).head? =
      some (nodeBatchIds [(0, 0), (1, 1), (3, 3)] 0) ∧
    List.Chain' (fun b1 b2 => b1.length = 1000 ∧
      b2 = nodeBatchIds [(0, 0), (1, 1), (3, 3)] (b1.getLast?.getD 0 + 1))
      (nodePopBatches [(0, 0), (1, 1), (3, 3)]) ∧
    ((nodePopBatches [(0, 0), (1, 1), (3, 3)]).getLast?.getD []).length < 1000) :=
  ⟨by decide, C3_node_populator_batches [(0, 0), (1, 1), (3, 3)] (by decide)⟩

--------------------------------------------------------------------------------
-- The v13 graph decoder (decode_graph.c)
--------------------------------------------------------------------------------

/-- The per-graph matrix synchronization policy. -/
inductive SyncPolicy where
  | nop
  | resize
  | flushResize
deriving DecidableEq, Repr

/-- The payload kinds of a virtual key. -/
inductive PayloadTy where
  | nodes
  | deletedNodes
  | edges
  | deletedEdges
  | schema
deriving DecidableEq, Repr

/-- The state of an index slot of a schema: absent, pending (created but not
yet enabled) or active. -/
inductive IdxState where
  | noIdx
  | pendingIdx
  | activeIdx
deriving DecidableEq, Repr

/-- The graph-level state observed by the decoder: sync policy, whether any
matrix holds pending changes, whether the node-label matrix has been set,
and the per-label / per-relation index slots. -/
structure GraphSt where
  policy : SyncPolicy
  pending : Bool
  nodeLabelsSet : Bool
  nodeIdx : List IdxState
  edgeIdx : List IdxState
deriving DecidableEq, Repr

/-- The decoding context: decoded graph state, processed-key counter and the
total key count, plus whether `GraphDecodeContext_Reset` ran. -/
structure DecodeSt where
  g : GraphSt
  processedKeys : Nat
  keyCount : Nat
  ctxReset : Bool
deriving DecidableEq, Repr

/-- `_GetOrCreateGraphContext` for a graph that is not yet loaded: the
context is created and the matrix policy set to `SYNC_POLICY_RESIZE`. -/
def GetOrCreateGraphContext (nodeIdx edgeIdx : List IdxState) : DecodeSt :=
  { g := { policy := .resize, pending := false, nodeLabelsSet := false,
           nodeIdx := nodeIdx, edgeIdx := edgeIdx },
    processedKeys := 0, keyCount := 0, ctxReset := false }

/-- The payload dispatch of `RdbLoadGraphContext_v13`: node and edge
payloads set the matrix policy to `SYNC_POLICY_NOP` and stage entities into
the matrices (pending overlays); deleted-entity and schema payloads touch
neither. -/
def loadPayload (g : GraphSt) : PayloadTy → GraphSt
  | .nodes => { g with policy := .nop, pending := true }
  | .edges => { g with policy := .nop, pending := true }
  | .deletedNodes => g
  | .deletedEdges => g
  | .schema => g

/-- `Index_Enable` applied to every pending index of a schema list. -/
def enableAll (l : List IdxState) : List IdxState :=
  l.map (fun s => match s with
    | .pendingIdx => .activeIdx
    | s => s)

/-- `_DecodeHeader`: on the first key of the graph, the data structures are
allocated and flushed (`Graph_ApplyAllPending` inside
`_InitGraphDataStructure`) and the total key count is recorded. -/
def DecodeHeader (st : DecodeSt) (keyNumber : Nat) : DecodeSt :=
  if st.processedKeys = 0 then
    { st with g := { st.g with pending := false }, keyCount := keyNumber }
  else st

/-- `RdbLoadGraphContext_v13`: decode the header, process the payloads of
the key, count the key as processed, and — when the decoding context
reports all keys processed — set the node-label matrix, flush all matrices,
restore the `FLUSH_RESIZE` policy, enable every pending node and edge
index, and reset the decoding context. -/
def RdbLoadGraphContext_v13 (st : DecodeSt) (keyNumber : Nat)
    (payloads : List PayloadTy) : DecodeSt :=
  let st1 := DecodeHeader st keyNumber
  let g1 := payloads.foldl loadPayload st1.g
  let processed := st1.processedKeys + 1
  if processed = st1.keyCount then
    { g := { policy := .flushResize, pending := false, nodeLabelsSet := true,
             nodeIdx := enableAll g1.nodeIdx, edgeIdx := enableAll g1.edgeIdx },
      processedKeys := 0, keyCount := st1.keyCount, ctxReset := true }
  else
    { st1 with g := g1, processedKeys := processed, ctxReset := false }

theorem enableAll_no_pending (l : List IdxState) :
    ∀ s ∈ enableAll l, s ≠ .pendingIdx := by
  intro s hs
  rcases List.mem_map.mp hs with ⟨x, _, hx⟩
  cases x <;> rw [← hx] <;> intro h <;> exact IdxState.noConfusion h

theorem enableAll_pointwise (l : List IdxState) :
    List.Forall₂ (fun a b => b = match a with
      | IdxState.pendingIdx => IdxState.activeIdx
      | x => x) l (enableAll l) := by
  induction l with
  | nil => exact List.Forall₂.nil
  | cons a l ih => exact List.Forall₂.cons rfl ih

theorem foldl_loadPayload_policy (ps : List PayloadTy) :
    ∀ q : GraphSt, (ps.foldl loadPayload q).policy = q.policy ∨
      (ps.foldl loadPayload q).policy = SyncPolicy.nop := by
  induction ps with
  | nil => intro q; left; rfl
  | cons p ps ih =>
    intro q
    rw [List.foldl_cons]
    rcases ih (loadPayload q p) with h | h
    · rw [h]
      cases p
      · right; rfl
      · left; rfl
      · right; rfl
      · left; rfl
      · left; rfl
    · right; exact h

theorem loadPayload_policy (ps : List PayloadTy) :
    ∀ g : GraphSt, (PayloadTy.nodes ∈ ps ∨ PayloadTy.edges ∈ ps) →
      (ps.foldl loadPayload g).policy = .nop := by
  induction ps with
  | nil => intro g h; rcases h with h | h <;> simp at h
  | cons p ps ih =>
    intro g h
    rw [List.foldl_cons]
    by_cases hmem : PayloadTy.nodes ∈ ps ∨ PayloadTy.edges ∈ ps
    · exact ih (loadPayload g p) hmem
    · have hp : p = PayloadTy.nodes ∨ p = PayloadTy.edges := by
        rcases h with h | h <;> rcases List.mem_cons.mp h with rfl | h2
        · left; rfl
        · exact absurd (Or.inl h2) hmem
        · right; rfl
        · exact absurd (Or.inr h2) hmem
      have hq : (loadPayload g p).policy = SyncPolicy.nop := by
        rcases hp with rfl | rfl <;> rfl
      rcases foldl_loadPayload_policy ps (loadPayload g p) with h2 | h2
      · rw [h2, hq]
      · exact h2

/-- Counterexample to claim C4 as stated: a freshly created graph context
(policy RESIZE) decoding the first of two virtual keys, the key holding a
nodes payload.  Bulk decode is still in progress after this key, yet the
matrix-sync policy is NOP, not RESIZE. -/
theorem C4_counterexample :
    (RdbLoadGraphContext_v13 (GetOrCreateGraphContext [] []) 2
        [PayloadTy.nodes]).processedKeys = 1 ∧
    (RdbLoadGraphContext_v13 (GetOrCreateGraphContext [] []) 2
        [PayloadTy.nodes]).keyCount = 2 ∧
    (RdbLoadGraphContext_v13 (GetOrCreateGraphContext [] []) 2
        [PayloadTy.nodes]).g.policy = SyncPolicy.nop ∧
    ¬ (RdbLoadGraphContext_v13 (GetOrCreateGraphContext [] []) 2
        [PayloadTy.nodes]).g.policy = SyncPolicy.resize := by
  refine ⟨rfl, rfl, rfl, ?_⟩
  decide

/-- Claim C4 (amended): the policy is RESIZE from context creation only
until the first node or edge payload, after which it is NOP while node and
edge payloads stream in (and stays NOP between keys); when the decoder
processes the last virtual key it sets the node-label matrix, flushes all
matrices (no pending changes remain), restores the FLUSH-RESIZE policy,
enables every pending node and edge index (leaving the other index slots
unchanged), and resets the decoding context. -/
theorem C4_decoder_finalization (st : DecodeSt) (keyNumber : Nat)
    (payloads : List PayloadTy) :
    ((DecodeHeader st keyNumber).processedKeys + 1 =
        (DecodeHeader st keyNumber).keyCount →
      (RdbLoadGraphContext_v13 st keyNumber payloads).g.policy =
          SyncPolicy.flushResize ∧
      (RdbLoadGraphContext_v13 st keyNumber payloads).g.pending = false ∧
      (RdbLoadGraphContext_v13 st keyNumber payloads).g.nodeLabelsSet = true ∧
      (∀ s ∈ (RdbLoadGraphContext_v13 st keyNumber payloads).g.nodeIdx,
        s ≠ IdxState.pendingIdx) ∧
      (∀ s ∈ (RdbLoadGraphContext_v13 st keyNumber payloads).g.edgeIdx,
        s ≠ IdxState.pendingIdx) ∧
      List.Forall₂ (fun a b => b = match a with
          | IdxState.pendingIdx => IdxState.activeIdx
          | x => x)
        (payloads.foldl loadPayload (DecodeHeader st keyNumber).g).nodeIdx
        (RdbLoadGraphContext_v13 st keyNumber payloads).g.nodeIdx ∧
      List.Forall₂ (fun a b => b = match a with
          | IdxState.pendingIdx => IdxState.activeIdx
          | x => x)
        (payloads.foldl loadPayload (DecodeHeader st keyNumber).g).edgeIdx
        (RdbLoadGraphContext_v13 st keyNumber payloads).g.edgeIdx ∧
      (RdbLoadGraphContext_v13 st keyNumber payloads).ctxReset = true ∧
      (RdbLoadGraphContext_v13 st keyNumber payloads).processedKeys = 0) ∧
    ((DecodeHeader st keyNumber).processedKeys + 1 ≠
        (DecodeHeader st keyNumber).keyCount →
      (PayloadTy.nodes ∈ payloads ∨ PayloadTy.edges ∈ payloads) →
      (RdbLoadGraphContext_v13 st keyNumber payloads).g.policy =
        SyncPolicy.nop) ∧
    (GetOrCreateGraphContext [] []).g.policy = SyncPolicy.resize := by
  refine ⟨fun hfin => ?_, fun hnot hmem => ?_, rfl⟩
  · have hres : RdbLoadGraphContext_v13 st keyNumber payloads =
        { g := { policy := .flushResize, pending := false,
                 nodeLabelsSet := true,
                 nodeIdx := enableAll (payloads.foldl loadPayload
                   (DecodeHeader st keyNumber).g).nodeIdx,
                 edgeIdx := enableAll (payloads.foldl loadPayload
                   (DecodeHeader st keyNumber).g).edgeIdx },
          processedKeys := 0, keyCount := (DecodeHeader st keyNumber).keyCount,
          ctxReset := true } := by
      show (if (DecodeHeader st keyNumber).processedKeys + 1 =
          (DecodeHeader st keyNumber).keyCount then _ else _) = _
      rw [if_pos hfin]
    rw [hres]
    exact ⟨rfl, rfl, rfl, enableAll_no_pending _, enableAll_no_pending _,
      enableAll_pointwise _, enableAll_pointwise _, rfl, rfl⟩
  · have hres : RdbLoadGraphContext_v13 st keyNumber payloads =
        { DecodeHeader st keyNumber with
          g := payloads.foldl loadPayload (DecodeHeader st keyNumber).g,
          processedKeys := (DecodeHeader st keyNumber).processedKeys + 1,
          ctxReset := false } := by
      show (if (DecodeHeader st keyNumber).processedKeys + 1 =
          (DecodeHeader st keyNumber).keyCount then _ else _) = _
      rw [if_neg hnot]
    rw [hres]
    exact loadPayload_policy payloads _ hmem

/-- Witness for C4 at a concrete input: a two-key decode with a pending node
index, finalized by the second key. -/
theorem C4_witness :
    ({ g := { policy := SyncPolicy.nop, pending := true, nodeLabelsSet := false,
              nodeIdx := [IdxState.pendingIdx, IdxState.noIdx],
              edgeIdx := [IdxState.activeIdx] },
       processedKeys := 1, keyCount := 2, ctxReset := false : DecodeSt}
         |> (fun st => (DecodeHeader st 2).processedKeys + 1 =
               (DecodeHeader st 2).keyCount)) ∧
    (RdbLoadGraphContext_v13
        { g := { policy := SyncPolicy.nop, pending := true,
                 nodeLabelsSet := false,
                 nodeIdx := [IdxState.pendingIdx, IdxState.noIdx],
                 edgeIdx := [IdxState.activeIdx] },
          processedKeys := 1, keyCount := 2, ctxReset := false } 2
        [PayloadTy.edges]).g.policy = SyncPolicy.flushResize ∧
    (RdbLoadGraphContext_v13
        { g := { policy := SyncPolicy.nop, pending := true,
                 nodeLabelsSet := false,
                 nodeIdx := [IdxState.pendingIdx, IdxState.noIdx],
                 edgeIdx := [IdxState.activeIdx] },
          processedKeys := 1, keyCount := 2, ctxReset := false } 2
        [PayloadTy.edges]).g.pending = false ∧
    (RdbLoadGraphContext_v13
        { g := { policy := SyncPolicy.nop, pending := true,
                 nodeLabelsSet := false,
                 nodeIdx := [IdxState.pendingIdx, IdxState.noIdx],
                 edgeIdx := [IdxState.activeIdx] },
          processedKeys := 1, keyCount := 2, ctxReset := false } 2
        [PayloadTy.edges]).ctxReset = true := by
  have H := (C4_decoder_finalization
    { g := { policy := SyncPolicy.nop, pending := true, nodeLabelsSet := false,
             nodeIdx := [IdxState.pendingIdx, IdxState.noIdx],
             edgeIdx := [IdxState.activeIdx] },
      processedKeys := 1, keyCount := 2, ctxReset := false } 2
    [PayloadTy.edges]).1 (by decide)
  exact ⟨by decide, H.1, H.2.1, H.2.2.2.2.2.2.2.1⟩

--------------------------------------------------------------------------------
-- The v14 edge encoder (encode_graph_entities.c)
--------------------------------------------------------------------------------

/-- An encoded edge record: edge id, source, destination, relation id (the
fields `_RdbSaveEdge` writes that identify the edge). -/
abbrev EncEdge := Nat × Nat × Nat × Nat

/-- The encoding context carried between calls of `RdbSaveEdges_v14`:
the remainder of a multi-edge array being encoded (empty list standing for
the NULL pointer) with its source and destination, the current relation id,
the iterator suffix of the current relation matrix, and the remaining
relation matrices. -/
structure EncCtx where
  marr : List Nat
  msrc : Nat
  mdest : Nat
  r : Nat
  cur : List Slot
  rest : List (List Slot)
deriving DecidableEq, Repr

/-- Encode a run of edge ids sharing a matrix position and relation. -/
def encodeIds (ids : List Nat) (src dest r : Nat) : List EncEdge :=
  ids.map (fun i => (i, src, dest, r))

/-- Remaining iterator work, measured in matrix entries. -/
def loopMeasure (cur : List Slot) (rest : List (List Slot)) : Nat :=
  cur.length + (rest.map List.length).sum + rest.length

/-- The main loop of `RdbSaveEdges_v14`: while fewer than `cap` edges are
encoded, fetch the next tuple (moving to the next relation matrix on
exhaustion, finishing after the last); a `SINGLE_EDGE` value is encoded
directly; a multi-edge array is encoded through `_RdbSaveMultipleEdges`,
which stops at the capacity and records the array remainder, source,
destination in the context. -/
def saveLoop : Nat → Nat → List Slot → List (List Slot) →
    List EncEdge × EncCtx
  | 0, r, cur, rest => ([], ⟨[], 0, 0, r, cur, rest⟩)
  | _ + 1, r, [], [] => ([], ⟨[], 0, 0, r + 1, [], []⟩)
  | cap + 1, r, [], c :: rs => saveLoop (cap + 1) (r + 1) c rs
  | cap + 1, r, t :: ts, rest =>
    match t.val with
    | .single i =>
      let p := saveLoop cap r ts rest
      ((i, t.src, t.dest, r) :: p.1, p.2)
    | .multi ids =>
      if cap + 1 ≤ ids.length then
        (encodeIds (ids.take (cap + 1)) t.src t.dest r,
         ⟨ids.drop (cap + 1), t.src, t.dest, r, ts, rest⟩)
      else
        let p := saveLoop (cap + 1 - ids.length) r ts rest
        (encodeIds ids t.src t.dest r ++ p.1, p.2)
termination_by cap _ cur rest => cap + loopMeasure cur rest
decreasing_by
  all_goals simp only [loopMeasure, List.map_cons, List.sum_cons,
    List.length_cons]
  · omega
  · omega
  · omega

/-- `RdbSaveEdges_v14`: encode exactly `cap` edges unless the graph runs
out, resuming a partially encoded multi-edge array first, then running the
main loop; the updated context is stored for the next call. -/
def RdbSaveEdges_v14 (ctx : EncCtx) (cap : Nat) : List EncEdge × EncCtx :=
  if cap = 0 then ([], ctx)
  else if cap ≤ ctx.marr.length ∧ ctx.marr ≠ [] then
    (encodeIds (ctx.marr.take cap) ctx.msrc ctx.mdest ctx.r,
     { ctx with marr := ctx.marr.drop cap })
  else
    (encodeIds ctx.marr ctx.msrc ctx.mdest ctx.r ++
       (saveLoop (cap - ctx.marr.length) ctx.r ctx.cur ctx.rest).1,
     (saveLoop (cap - ctx.marr.length) ctx.r ctx.cur ctx.rest).2)

/-- All edges of one relation matrix suffix, in iterator order, with
multi-edge slots expanded in array order. -/
def relEdges (r : Nat) : List Slot → List EncEdge
  | [] => []
  | t :: ts => encodeIds (slotEdges t.val) t.src t.dest r ++ relEdges r ts

/-- All edges of a list of relation matrices, relation ids ascending from
`r`. -/
def relsEdges : Nat → List (List Slot) → List EncEdge
  | _, [] => []
  | r, c :: rs => relEdges r c ++ relsEdges (r + 1) rs

/-- The edges a context has not yet encoded, in encoding order. -/
def ctxRemaining (ctx : EncCtx) : List EncEdge :=
  encodeIds ctx.marr ctx.msrc ctx.mdest ctx.r ++ relEdges ctx.r ctx.cur ++
    relsEdges (ctx.r + 1) ctx.rest

/-- The context at the start of the first `RdbSaveEdges_v14` call: no
multi-edge remainder, relation 0, its matrix freshly attached. -/
def initEncCtx (rels : List (List Slot)) : EncCtx :=
  ⟨[], 0, 0, 0, rels.headD [], rels.tail⟩

/-- A sequence of `RdbSaveEdges_v14` calls with the given capacities,
threading the encoding context. -/
def runSaveCalls : EncCtx → List Nat → List (List EncEdge) × EncCtx
  | ctx, [] => ([], ctx)
  | ctx, n :: ns =>
    ((RdbSaveEdges_v14 ctx n).1 ::
       (runSaveCalls (RdbSaveEdges_v14 ctx n).2 ns).1,
     (runSaveCalls (RdbSaveEdges_v14 ctx n).2 ns).2)

/-- Concatenation of the per-call outputs. -/
def concatAll : List (List EncEdge) → List EncEdge
  | [] => []
  | o :: os => o ++ concatAll os

theorem ctxRemaining_init (rels : List (List Slot)) :
    ctxRemaining (initEncCtx rels) = relsEdges 0 rels := by
  cases rels with
  | nil => rfl
  | cons c rs => simp [ctxRemaining, initEncCtx, encodeIds, relsEdges]

theorem saveLoop_spec : ∀ (cap r : Nat) (cur : List Slot)
    (rest : List (List Slot)),
    cap ≤ (relEdges r cur ++ relsEdges (r + 1) rest).length →
    (saveLoop cap r cur rest).1 =
      (relEdges r cur ++ relsEdges (r + 1) rest).take cap ∧
    ctxRemaining (saveLoop cap r cur rest).2 =
      (relEdges r cur ++ relsEdges (r + 1) rest).drop cap := by
  intro cap r cur rest
  induction cap, r, cur, rest using saveLoop.induct with
  | case1 r cur rest =>
    intro _
    simp [saveLoop, ctxRemaining, encodeIds]
  | case2 cap r =>
    intro h
    simp [relEdges, relsEdges] at h
  | case3 cap r c rs ih =>
    intro h
    simp only [relEdges, relsEdges, List.nil_append] at h ⊢
    rw [saveLoop]
    exact ih h
  | case4 cap r t ts rest i hval ih =>
    intro h
    rw [saveLoop]
    simp only [hval]
    have hL : relEdges r (t :: ts) ++ relsEdges (r + 1) rest =
        (i, t.src, t.dest, r) ::
          (relEdges r ts ++ relsEdges (r + 1) rest) := by
      simp [relEdges, hval, encodeIds, slotEdges]
    rw [hL] at h ⊢
    simp only [List.length_cons] at h
    obtain ⟨h1, h2⟩ := ih (by omega)
    refine ⟨?_, ?_⟩
    · rw [List.take_succ_cons]
      exact congrArg _ h1
    · rw [List.drop_succ_cons]
      exact h2
  | case5 cap r t ts rest ids hval hle =>
    intro h
    rw [saveLoop]
    simp only [hval, if_pos hle]
    have hL : relEdges r (t :: ts) ++ relsEdges (r + 1) rest =
        encodeIds ids t.src t.dest r ++
          (relEdges r ts ++ relsEdges (r + 1) rest) := by
      simp [relEdges, hval, slotEdges]
    have hlen : (encodeIds ids t.src t.dest r).length = ids.length := by
      simp [encodeIds]
    rw [hL]
    constructor
    · rw [List.take_append_eq_append_take, hlen]
      rw [show cap + 1 - ids.length = 0 from by omega, List.take_zero,
        List.append_nil]
      simp [encodeIds, List.map_take]
    · rw [List.drop_append_eq_append_drop, hlen]
      rw [show cap + 1 - ids.length = 0 from by omega, List.drop_zero]
      simp only [ctxRemaining, encodeIds, List.map_drop]
      rw [List.append_assoc]
  | case6 cap r t ts rest ids hval hgt ih =>
    intro h
    rw [saveLoop]
    simp only [hval, if_neg hgt]
    have hL : relEdges r (t :: ts) ++ relsEdges (r + 1) rest =
        encodeIds ids t.src t.dest r ++
          (relEdges r ts ++ relsEdges (r + 1) rest) := by
      simp [relEdges, hval, slotEdges]
    have hlen : (encodeIds ids t.src t.dest r).length = ids.length := by
      simp [encodeIds]
    have hidlen : ids.length < cap + 1 := by omega
    rw [hL] at h ⊢
    rw [List.length_append, hlen] at h
    obtain ⟨h1, h2⟩ := ih (by omega)
    constructor
    · rw [List.take_append_eq_append_take, hlen,
        List.take_of_length_le (by omega), h1]
    · rw [List.drop_append_eq_append_drop, hlen,
        List.drop_eq_nil_of_le (by omega), List.nil_append, h2]

theorem saveEdges_spec (ctx : EncCtx) (cap : Nat)
    (h : cap ≤ (ctxRemaining ctx).length) :
    (RdbSaveEdges_v14 ctx cap).1 = (ctxRemaining ctx).take cap ∧
    ctxRemaining (RdbSaveEdges_v14 ctx cap).2 = (ctxRemaining ctx).drop cap := by
  have hassoc : ctxRemaining ctx =
      encodeIds ctx.marr ctx.msrc ctx.mdest ctx.r ++
        (relEdges ctx.r ctx.cur ++ relsEdges (ctx.r + 1) ctx.rest) := by
    rw [ctxRemaining, List.append_assoc]
  have hlenm : (encodeIds ctx.marr ctx.msrc ctx.mdest ctx.r).length =
      ctx.marr.length := by
    simp [encodeIds]
  by_cases h0 : cap = 0
  · subst h0
    simp [RdbSaveEdges_v14]
  · by_cases hm : cap ≤ ctx.marr.length ∧ ctx.marr ≠ []
    · have hres : RdbSaveEdges_v14 ctx cap =
          (encodeIds (ctx.marr.take cap) ctx.msrc ctx.mdest ctx.r,
           { ctx with marr := ctx.marr.drop cap }) := by
        unfold RdbSaveEdges_v14
        rw [if_neg h0, if_pos hm]
      rw [hres]
      constructor
      · rw [hassoc, List.take_append_eq_append_take, hlenm,
          show cap - ctx.marr.length = 0 from by omega, List.take_zero,
          List.append_nil]
        simp [encodeIds, List.map_take]
      · show ctxRemaining { ctx with marr := ctx.marr.drop cap } = _
        rw [hassoc, List.drop_append_eq_append_drop, hlenm,
          show cap - ctx.marr.length = 0 from by omega, List.drop_zero]
        simp only [ctxRemaining, encodeIds, List.map_drop]
        rw [List.append_assoc]
    · have hle : ctx.marr.length ≤ cap := by
        by_cases hnil : ctx.marr = []
        · rw [hnil]; simp
        · have : ¬ (cap ≤ ctx.marr.length) := fun hc => hm ⟨hc, hnil⟩
          omega
      have hres : RdbSaveEdges_v14 ctx cap =
          (encodeIds ctx.marr ctx.msrc ctx.mdest ctx.r ++
             (saveLoop (cap - ctx.marr.length) ctx.r ctx.cur ctx.rest).1,
           (saveLoop (cap - ctx.marr.length) ctx.r ctx.cur ctx.rest).2) := by
        unfold RdbSaveEdges_v14
        rw [if_neg h0, if_neg hm]
      have hrem : cap - ctx.marr.length ≤
          (relEdges ctx.r ctx.cur ++ relsEdges (ctx.r + 1) ctx.rest).length := by
        rw [hassoc, List.length_append, hlenm] at h
        omega
      obtain ⟨h1, h2⟩ :=
        saveLoop_spec (cap - ctx.marr.length) ctx.r ctx.cur ctx.rest hrem
      rw [hres]
      constructor
      · rw [hassoc, List.take_append_eq_append_take, hlenm,
          List.take_of_length_le (by rw [hlenm]; exact hle), h1]
      · rw [hassoc, List.drop_append_eq_append_drop, hlenm,
          List.drop_eq_nil_of_le (by rw [hlenm]; exact hle), List.nil_append,
          h2]

theorem runSaveCalls_spec (ns : List Nat) : ∀ ctx : EncCtx,
    ns.sum ≤ (ctxRemaining ctx).length →
    List.Forall₂ (fun o n => o.length = n) (runSaveCalls ctx ns).1 ns ∧
    concatAll (runSaveCalls ctx ns).1 = (ctxRemaining ctx).take ns.sum ∧
    ctxRemaining (runSaveCalls ctx ns).2 = (ctxRemaining ctx).drop ns.sum := by
  induction ns with
  | nil =>
    intro ctx _
    exact ⟨List.Forall₂.nil, by simp [runSaveCalls, concatAll],
      by simp [runSaveCalls]⟩
  | cons n ns ih =>
    intro ctx h
    rw [List.sum_cons] at h
    obtain ⟨e1, e2⟩ := saveEdges_spec ctx n (by omega)
    have hlen2 : ns.sum ≤ (ctxRemaining (RdbSaveEdges_v14 ctx n).2).length := by
      rw [e2, List.length_drop]
      omega
    obtain ⟨f1, f2, f3⟩ := ih (RdbSaveEdges_v14 ctx n).2 hlen2
    refine ⟨List.Forall₂.cons ?_ f1, ?_, ?_⟩
    · rw [e1, List.length_take]
      omega
    · show (RdbSaveEdges_v14 ctx n).1 ++
          concatAll (runSaveCalls (RdbSaveEdges_v14 ctx n).2 ns).1 = _
      rw [e1, f2, e2, List.sum_cons, List.take_add]
    · show ctxRemaining (runSaveCalls (RdbSaveEdges_v14 ctx n).2 ns).2 = _
      rw [f3, e2, List.sum_cons, List.drop_drop]

/-- The relation-id / source / destination key order of encoded edges:
ascending relation id, then row-major position inside a relation. -/
def encLe (a b : EncEdge) : Prop :=
  a.2.2.2 < b.2.2.2 ∨ (a.2.2.2 = b.2.2.2 ∧
    (a.2.1 < b.2.1 ∨ (a.2.1 = b.2.1 ∧ a.2.2.1 ≤ b.2.2.1)))

instance (a b : EncEdge) : Decidable (encLe a b) := by
  unfold encLe; infer_instance

theorem mem_encodeIds_key {x : EncEdge} {ids : List Nat} {s d r : Nat}
    (hx : x ∈ encodeIds ids s d r) :
    x.2.1 = s ∧ x.2.2.1 = d ∧ x.2.2.2 = r := by
  rcases List.mem_map.mp hx with ⟨i, _, rfl⟩
  exact ⟨rfl, rfl, rfl⟩

theorem mem_relEdges_key {r : Nat} :
    ∀ {c : List Slot} {x : EncEdge}, x ∈ relEdges r c →
      ∃ u ∈ c, x.2.1 = u.src ∧ x.2.2.1 = u.dest ∧ x.2.2.2 = r := by
  intro c
  induction c with
  | nil => intro x hx; simp [relEdges] at hx
  | cons t ts ih =>
    intro x hx
    rcases List.mem_append.mp hx with hx | hx
    · obtain ⟨h1, h2, h3⟩ := mem_encodeIds_key hx
      exact ⟨t, by simp, h1, h2, h3⟩
    · obtain ⟨u, hu, hk⟩ := ih hx
      exact ⟨u, List.mem_cons_of_mem t hu, hk⟩

theorem mem_relsEdges_rge :
    ∀ (rs : List (List Slot)) (r : Nat) (x : EncEdge), x ∈ relsEdges r rs →
      r ≤ x.2.2.2 := by
  intro rs
  induction rs with
  | nil => intro r x hx; simp [relsEdges] at hx
  | cons c cs ih =>
    intro r x hx
    rcases List.mem_append.mp hx with hx | hx
    · obtain ⟨u, _, _, _, h3⟩ := mem_relEdges_key hx
      omega
    · have := ih (r + 1) x hx
      omega

theorem relEdges_sorted (r : Nat) :
    ∀ (c : List Slot), List.Pairwise slotLt c →
      List.Pairwise encLe (relEdges r c) := by
  intro c
  induction c with
  | nil => intro _; simp [relEdges]
  | cons t ts ih =>
    intro hc
    rcases List.pairwise_cons.mp hc with ⟨hrel, hts⟩
    rw [relEdges, List.pairwise_append]
    refine ⟨?_, ih hts, ?_⟩
    · refine List.pairwise_of_forall_mem_list ?_
      intro a ha b hb
      obtain ⟨ha1, ha2, ha3⟩ := mem_encodeIds_key ha
      obtain ⟨hb1, hb2, hb3⟩ := mem_encodeIds_key hb
      right
      exact ⟨by omega, Or.inr ⟨by omega, by omega⟩⟩
    · intro a ha b hb
      obtain ⟨ha1, ha2, ha3⟩ := mem_encodeIds_key ha
      obtain ⟨u, hu, hb1, hb2, hb3⟩ := mem_relEdges_key hb
      have hlt := hrel u hu
      rcases hlt with hlt | ⟨heq, hlt⟩
      · right
        exact ⟨by omega, Or.inl (by omega)⟩
      · right
        exact ⟨by omega, Or.inr ⟨by omega, by omega⟩⟩

theorem relsEdges_sorted :
    ∀ (rs : List (List Slot)) (r : Nat),
      (∀ c ∈ rs, List.Pairwise slotLt c) →
      List.Pairwise encLe (relsEdges r rs) := by
  intro rs
  induction rs with
  | nil => intro r _; simp [relsEdges]
  | cons c cs ih =>
    intro r hall
    rw [relsEdges, List.pairwise_append]
    refine ⟨relEdges_sorted r c (hall c (by simp)), ?_, ?_⟩
    · exact ih (r + 1) (fun c2 hc2 => hall c2 (List.mem_cons_of_mem c hc2))
    · intro a ha b hb
      obtain ⟨u, _, _, _, h3⟩ := mem_relEdges_key ha
      have := mem_relsEdges_rge cs (r + 1) b hb
      left
      omega

/-- Claim C10: for every sequence of positive capacities summing to the
graph's edge count, each `RdbSaveEdges_v14` call encodes exactly its
capacity of edges (resuming, when the previous call stopped inside a
multi-edge slot, at the saved index within that slot's array), and the
concatenated output encodes every edge of every relation matrix exactly
once, in order of ascending relation id and, within a relation, in the
matrix iterator's row-major slot order with multi-edge arrays expanded in
array order. -/
theorem C10_rdb_save_edges (rels : List (List Slot)) (ns : List Nat)
    (hsum : ns.sum = (relsEdges 0 rels).length)
    (_hpos : ∀ n ∈ ns, 0 < n) :
    List.Forall₂ (fun o n => o.length = n)
      (runSaveCalls (initEncCtx rels) ns).1 ns ∧
    concatAll (runSaveCalls (initEncCtx rels) ns).1 = relsEdges 0 rels ∧
    ((∀ c ∈ rels, List.Pairwise slotLt c) →
      List.Pairwise encLe (concatAll (runSaveCalls (initEncCtx rels) ns).1)) := by
  have hrem := ctxRemaining_init rels
  obtain ⟨g1, g2, g3⟩ := runSaveCalls_spec ns (initEncCtx rels)
    (by rw [hrem]; omega)
  refine ⟨g1, ?_, ?_⟩
  · rw [g2, hrem, hsum, List.take_length]
  · intro hsorted
    rw [g2, hrem, hsum, List.take_length]
    exact relsEdges_sorted rels 0 hsorted

/-- Witness for C10 at a concrete input: two relation matrices (one with a
multi-edge slot, one empty relation in between), encoded by two calls with
capacities 3 and 1. -/
theorem C10_witness :
    ([3, 1] : List Nat).sum =
      (relsEdges 0 [[⟨0, 0, .multi [5, 6]⟩, ⟨0, 1, .single 7⟩], [],
        [⟨2, 0, .single 8⟩]]).length ∧
    (∀ n ∈ ([3, 1] : List Nat), 0 < n) ∧
    (List.Forall₂ (fun o n => o.length = n)
      (runSaveCalls (initEncCtx [[⟨0, 0, .multi [5, 6]⟩, ⟨0, 1, .single 7⟩],
        [], [⟨2, 0, .single 8⟩]]) [3, 1]).1 [3, 1] ∧
    concatAll (runSaveCalls (initEncCtx [[⟨0, 0, .multi [5, 6]⟩,
        ⟨0, 1, .single 7⟩], [], [⟨2, 0, .single 8⟩]]) [3, 1]).1 =
      relsEdges 0 [[⟨0, 0, .multi [5, 6]⟩, ⟨0, 1, .single 7⟩], [],
        [⟨2, 0, .single 8⟩]] ∧
    ((∀ c ∈ [[⟨0, 0, .multi [5, 6]⟩, ⟨0, 1, .single 7⟩], [],
        [⟨2, 0, .single 8⟩]], List.Pairwise slotLt c) →
      List.Pairwise encLe (concatAll (runSaveCalls
        (initEncCtx [[⟨0, 0, .multi [5, 6]⟩, ⟨0, 1, .single 7⟩], [],
          [⟨2, 0, .single 8⟩]]) [3, 1]).1))) :=
  ⟨by decide, by decide,
   C10_rdb_save_edges
     [[⟨0, 0, .multi [5, 6]⟩, ⟨0, 1, .single 7⟩], [], [⟨2, 0, .single 8⟩]]
     [3, 1] (by decide) (by decide)⟩

end FalkorDB
